import Mathlib

/-!
Verification of the AI-safety weekly digest generator
(`src/ai_safety_digest.py`) against its natural-language specification.

Strings are modelled as `List Char`.  Each Python function of the
`ContentFetcher` class and of `main` that the claims touch is embedded as a
Lean definition carrying the same name (modulo the leading underscore that
Lean identifiers avoid).  External effects — HTTP transfers, the PDF text
extractor, the HTML parser's `get_text`, base64 decoding, and the Slack/Gmail
APIs — are supplied as explicit environment records; the control flow around
them is translated from the source.
-/

/-- The newline character, the only line separator modelled
(Python `str.splitlines` also splits on rarer terminators). -/
def chNL : Char := '\n'

/-- The ASCII space character. -/
def chSpace : Char := ' '

/-- ASCII whitespace as stripped by Python `str.strip()`. -/
def isSpaceChar (c : Char) : Bool :=
  c == ' ' || c == '\t' || c == '\n' || c == '\r' || c == '\x0b' || c == '\x0c'

/-- Characters matched by one repetition unit of the URL regex at line 65 of
the source, `http[s]?://(?:[a-zA-Z]|[0-9]|[$-_@.&+]|[!*\\(\\),]|(?:%[0-9a-fA-F][0-9a-fA-F]))+`:
the class `[$-_@.&+]` is the code-point range 0x24–0x5F (which already holds
`@ . & + % * \ ( ) ,`), so the union is letters, digits, that range, and `!`. -/
def isUrlChar (c : Char) : Bool :=
  c.isAlpha || c.isDigit || (('$' ≤ c) && (c ≤ '_')) || c == '!'

/-- `"http://"` as a character list. -/
def httpPre : List Char := "http://".toList

/-- `"https://"` as a character list. -/
def httpsPre : List Char := "https://".toList

/-- One attempt of the URL regex at a fixed start position: the literal
scheme (with or without `s`) followed by a non-empty maximal run of
repetition-unit characters. -/
def matchUrlAt (l : List Char) : Option (List Char) :=
  if httpsPre.isPrefixOf l then
    let r := (l.drop 8).takeWhile isUrlChar
    if r.isEmpty then none else some (httpsPre ++ r)
  else if httpPre.isPrefixOf l then
    let r := (l.drop 7).takeWhile isUrlChar
    if r.isEmpty then none else some (httpPre ++ r)
  else none

/-- Fuelled scanner for `re.findall`: try a match at every position,
left to right, resuming after each match. -/
def scanGo : Nat → List Char → List (List Char)
  | 0, _ => []
  | _ + 1, [] => []
  | fuel + 1, c :: rest =>
    match matchUrlAt (c :: rest) with
    | some u => u :: scanGo fuel (rest.drop (u.length - 1))
    | none => scanGo fuel rest

/-- `re.findall(url_pattern, text)` of the source, lines 64–71. -/
def findUrls (text : List Char) : List (List Char) :=
  scanGo text.length text

/-- The duplicate-removal loop of `fetch_slack_urls`, lines 73–79 of the
source: a `seen` set plus an output list in first-seen order. -/
def dedupGo (seen : List (List Char)) : List (List Char) → List (List Char)
  | [] => []
  | u :: rest => if u ∈ seen then dedupGo seen rest else u :: dedupGo (u :: seen) rest

/-- `Remove duplicates while preserving order` stage of `fetch_slack_urls`. -/
def dedupUrls (urls : List (List Char)) : List (List Char) :=
  dedupGo [] urls

/-- URL extraction plus deduplication over the fetched messages,
lines 64–79 of the source. -/
def extractUniqueUrls (msgs : List (List Char)) : List (List Char) :=
  dedupUrls (msgs.flatMap findUrls)

/-- Accumulator form of Python `str.splitlines` restricted to `\n`:
segments between newlines; the segment after the last newline is kept
only when non-empty. -/
def splitlinesGo (acc : List Char) : List Char → List (List Char)
  | [] => if acc.isEmpty then [] else [acc]
  | c :: rest => if c == chNL then acc :: splitlinesGo [] rest else splitlinesGo (acc ++ [c]) rest

/-- Python `str.splitlines` (newline-only model). -/
def splitlines (l : List Char) : List (List Char) :=
  splitlinesGo [] l

/-- Python `str.strip()`: drop whitespace from both ends. -/
def strip (l : List Char) : List Char :=
  (((l.dropWhile isSpaceChar).reverse.dropWhile isSpaceChar)).reverse

/-- Accumulator form of Python `str.split("  ")`: cut at each
non-overlapping two-space occurrence, left to right. -/
def splitDSGo (acc : List Char) : List Char → List (List Char)
  | [] => [acc]
  | [c] => [acc ++ [c]]
  | c1 :: c2 :: rest =>
    if c1 == chSpace && c2 == chSpace then acc :: splitDSGo [] rest
    else splitDSGo (acc ++ [c1]) (c2 :: rest)

/-- Python `line.split("  ")` from line 220 of the source. -/
def splitDS (l : List Char) : List (List Char) :=
  splitDSGo [] l

/-- Python `'\n'.join`. -/
def joinNL : List (List Char) → List Char
  | [] => []
  | [c] => c
  | c :: c2 :: cs => c ++ chNL :: joinNL (c2 :: cs)

/-- Fuelled form of Python `str.replace(old, new)`: replace every
non-overlapping occurrence, left to right.  The fuel is the length of the
subject string, which one consumed character per step makes sufficient. -/
def pyReplaceGo (pat rep : List Char) : Nat → List Char → List Char
  | 0, s => s
  | _ + 1, [] => []
  | fuel + 1, c :: rest =>
    if pat.isPrefixOf (c :: rest) && !pat.isEmpty then
      rep ++ pyReplaceGo pat rep fuel ((c :: rest).drop pat.length)
    else c :: pyReplaceGo pat rep fuel rest

/-- Python `str.replace(old, new)`. -/
def pyReplace (s pat rep : List Char) : List Char :=
  pyReplaceGo pat rep s.length s

/-- Python `pat in s` substring membership. -/
def containsSub (pat : List Char) : List Char → Bool
  | [] => pat.isEmpty
  | c :: rest => pat.isPrefixOf (c :: rest) || containsSub pat rest

/-- Python `s.endswith(suffix)`. -/
def endsWith (l suffix : List Char) : Bool :=
  suffix.reverse.isPrefixOf l.reverse

/-- `'type'` field of a paper dict: `'pdf'` or `'webpage'`. -/
inductive ContentKind
  | pdf
  | webpage
deriving DecidableEq, Repr

/-- The dict returned by `download_paper_content` and its helpers:
url, type, content, success, and the `'error'` key present only on failure. -/
structure RetrievalOutcome where
  url : List Char
  type : ContentKind
  content : List Char
  success : Bool
  error : Option (List Char)
deriving DecidableEq, Repr

/-- The transient filesystem state: the contents of `/tmp/temp_paper.pdf`
when that file exists. -/
structure FS where
  tmp : Option (List Char)
deriving DecidableEq, Repr

/-- External effects used by the Document Resolver.  An `Except` error value
is the `str(e)` of the exception the call raised. -/
structure Env where
  /-- `requests.get(pdf_url, timeout=30)` + `raise_for_status`: the response
  body bytes, or the raised exception's message. -/
  httpGet : List Char → Except (List Char) (List Char)
  /-- `pdfplumber.open` + page walk over the saved bytes: per-page
  `page.extract_text()` results (`none` for pages with no extractable text),
  or the raised exception's message. -/
  pdfPages : List Char → Except (List Char) (List (Option (List Char)))
  /-- `requests.get(url, timeout=30, headers=...)` + `raise_for_status` for
  web pages: the response text, or the raised exception's message. -/
  httpGetPage : List Char → Except (List Char) (List Char)
  /-- `BeautifulSoup(...)` with script/style decomposition followed by
  `soup.get_text()`. -/
  soupText : List Char → List Char

/-- Cap on structured-document (PDF) content, line 188 of the source. -/
def pdfCap : Nat := 100000

/-- Cap on web-page content, line 226 of the source. -/
def webCap : Nat := 50000

/-- The kind-specific content cap of a successful outcome. -/
def capFor : ContentKind → Nat
  | ContentKind.pdf => pdfCap
  | ContentKind.webpage => webCap

/-- `ContentFetcher._download_pdf`, lines 164–199 of the source.  The raw
bytes are written to `/tmp/temp_paper.pdf` before extraction; `os.remove`
runs only on the straight-line path after a successful extraction, since an
exception jumps directly to the `except` handler. -/
def download_pdf (env : Env) (fs : FS) (pdfUrl origUrl : List Char) :
    FS × RetrievalOutcome :=
  match env.httpGet pdfUrl with
  | Except.error e => (fs, ⟨origUrl, ContentKind.pdf, [], false, some e⟩)
  | Except.ok bytes =>
    let fs1 : FS := ⟨some bytes⟩
    match env.pdfPages bytes with
    | Except.error e => (fs1, ⟨origUrl, ContentKind.pdf, [], false, some e⟩)
    | Except.ok pages =>
      let text := (pages.map (fun p => p.getD [])).flatten
      (⟨none⟩, ⟨origUrl, ContentKind.pdf, text.take pdfCap, true, none⟩)

/-- Whitespace clean-up of `_fetch_webpage`, lines 218–221 of the source:
strip each line, split lines on double spaces, strip the chunks, and join
the non-empty chunks with newlines. -/
def cleanText (t : List Char) : List Char :=
  let ls := (splitlines t).map strip
  let chunks := ((ls.map splitDS).flatten).map strip
  joinNL (chunks.filter (fun c => !c.isEmpty))

/-- `ContentFetcher._fetch_webpage`, lines 201–237 of the source. -/
def fetch_webpage (env : Env) (url : List Char) : RetrievalOutcome :=
  match env.httpGetPage url with
  | Except.error e => ⟨url, ContentKind.webpage, [], false, some e⟩
  | Except.ok body =>
    ⟨url, ContentKind.webpage, (cleanText (env.soupText body)).take webCap, true, none⟩

/-- `"arxiv.org"` as a character list. -/
def arxivStr : List Char := "arxiv.org".toList

/-- `"/abs/"` as a character list. -/
def absSeg : List Char := "/abs/".toList

/-- `"/pdf/"` as a character list. -/
def pdfSeg : List Char := "/pdf/".toList

/-- `".pdf"` as a character list. -/
def dotPdf : List Char := ".pdf".toList

/-- The retrieval strategy chosen by `download_paper_content` together with
the arguments it passes on. -/
inductive FetchPlan
  | pdf (pdfUrl origUrl : List Char)
  | web (url : List Char)
deriving DecidableEq, Repr

/-- The classification and URL-rewriting logic of
`ContentFetcher.download_paper_content`, lines 145–162 of the source. -/
def classify (url : List Char) : FetchPlan :=
  if containsSub arxivStr url then
    if containsSub absSeg url then FetchPlan.pdf (pyReplace url absSeg pdfSeg ++ dotPdf) url
    else if containsSub pdfSeg url then
      (if endsWith url dotPdf then FetchPlan.pdf url url else FetchPlan.pdf (url ++ dotPdf) url)
    else FetchPlan.pdf url url
  else if endsWith url dotPdf then FetchPlan.pdf url url
  else FetchPlan.web url

/-- `ContentFetcher.download_paper_content`, lines 141–162 of the source. -/
def download_paper_content (env : Env) (fs : FS) (url : List Char) :
    FS × RetrievalOutcome :=
  match classify url with
  | FetchPlan.pdf pdfUrl origUrl => download_pdf env fs pdfUrl origUrl
  | FetchPlan.web u => (fs, fetch_webpage env u)

/-- The paper-download loop of `main`, lines 383–386: resolve each URL in
order, threading the filesystem state, and append each outcome. -/
def resolveAll (env : Env) (fs : FS) : List (List Char) → FS × List RetrievalOutcome
  | [] => (fs, [])
  | u :: rest =>
    let step := download_paper_content env fs u
    let further := resolveAll env step.1 rest
    (further.1, step.2 :: further.2)

/-- Papers per run cap, `slack_urls[:50]` at line 384 of the source. -/
def paperCap : Nat := 50

/-- `main`'s aggregation of paper outcomes: the first `paperCap` collected
URLs are resolved in collector order. -/
def runPipeline (env : Env) (fs : FS) (urls : List (List Char)) :
    FS × List RetrievalOutcome :=
  resolveAll env fs (urls.take paperCap)

/-- `Found N unique URLs from Slack`, line 81 of the source: the count
reported to the operator before any resolution cap applies. -/
def reportedCount (uniqueUrls : List (List Char)) : Nat :=
  uniqueUrls.length

/-- One entry of a Gmail multi-part payload: its MIME type and the base64
payload of `part['body'].get('data', '')` (empty when the key is absent). -/
structure MsgPart where
  mimeType : List Char
  data : List Char
deriving DecidableEq, Repr

/-- A Gmail message payload: `parts` is `some` exactly when the `'parts'`
key is present; `bodyData` is `payload['body'].get('data', '')`. -/
structure GmailPayload where
  parts : Option (List MsgPart)
  bodyData : List Char

/-- `"text/plain"` as a character list. -/
def textPlainT : List Char := "text/plain".toList

/-- `"text/html"` as a character list. -/
def textHtmlT : List Char := "text/html".toList

/-- The part loop of `ContentFetcher._get_email_body`, lines 126–134 of the
source: an `if`/`elif` on the MIME type, returning the decoded data of the
first part that has non-empty data; a matching part with empty data falls
through to the next part. -/
def get_email_body_parts (b64 : List Char → List Char) : List MsgPart → List Char
  | [] => []
  | part :: rest =>
    if part.mimeType = textPlainT then
      (if !part.data.isEmpty then b64 part.data else get_email_body_parts b64 rest)
    else if part.mimeType = textHtmlT then
      (if !part.data.isEmpty then b64 part.data else get_email_body_parts b64 rest)
    else get_email_body_parts b64 rest

/-- `ContentFetcher._get_email_body`, lines 123–139 of the source.  `b64` is
`base64.urlsafe_b64decode(...).decode('utf-8')`, supplied externally. -/
def get_email_body (b64 : List Char → List Char) (p : GmailPayload) : List Char :=
  match p.parts with
  | some parts => get_email_body_parts b64 parts
  | none => if !p.bodyData.isEmpty then b64 p.bodyData else []

/-- The Slack side of the world: the channel list returned by
`conversations_list` as (name, id) pairs, and, per channel id, the message
history inside the window as the API would serve it — in bounded pages.
`conversations_history` hands back the first page together with a cursor;
obtaining the remaining pages requires further calls. -/
structure SlackEnv where
  channels : List (List Char × List Char)
  historyPages : List Char → List (List (List Char))

/-- The channel lookup loop of `fetch_slack_urls`, lines 44–49 of the
source: the id of the first channel whose name matches. -/
def findChannelId (channels : List (List Char × List Char)) (name : List Char) :
    Option (List Char) :=
  (channels.find? (fun ch => ch.1 == name)).map (fun ch => ch.2)

/-- `ContentFetcher.fetch_slack_urls`, lines 39–82 of the source.  The code
issues exactly one `conversations_history` call (lines 59–62) and reads
`result['messages']` — the first page of the history — without ever
requesting a further page. -/
def fetch_slack_urls (senv : SlackEnv) (channelName : List Char) : List (List Char) :=
  match findChannelId senv.channels channelName with
  | none => []
  | some cid => extractUniqueUrls ((senv.historyPages cid).headD [])

/-- The specification-side first-occurrence deduplication: keep each value's
first occurrence, in order. -/
def dedupFirst : List (List Char) → List (List Char)
  | [] => []
  | u :: rest => u :: dedupFirst (rest.filter (fun v => v ≠ u))
termination_by l => l.length
decreasing_by
  simp only [List.length_cons]
  exact Nat.lt_succ_of_le (List.length_filter_le _ _)

/-- Whether the resolver's environment reports every failure with a
non-empty exception message, as `requests`, `pdfplumber` and the HTTP
status errors in scope do. -/
def EnvOk (env : Env) : Prop :=
  (∀ u e, env.httpGet u = Except.error e → e ≠ []) ∧
  (∀ b e, env.pdfPages b = Except.error e → e ≠ []) ∧
  (∀ u e, env.httpGetPage u = Except.error e → e ≠ [])

/-- Empty initial filesystem state: no leftover temporary file. -/
def fs0 : FS := ⟨none⟩

/-- A network-failure exception message. -/
def errNet : List Char := "connection timed out".toList

/-- A PDF-extraction exception message. -/
def errPdf : List Char := "invalid pdf structure".toList

/-- Test environment in which every network call fails. -/
def envFail : Env :=
  ⟨fun _ => Except.error errNet, fun _ => Except.error errPdf,
   fun _ => Except.error errNet, id⟩

/-- Bytes of a well-formed fetched PDF. -/
def someBytes : List Char := "PDFBYTES".toList

/-- The extractable text of that PDF's single page. -/
def pageText : List Char := "hello from page one".toList

/-- Test environment in which the PDF fetch and extraction succeed. -/
def envGoodPdf : Env :=
  ⟨fun _ => Except.ok someBytes, fun _ => Except.ok [some pageText],
   fun _ => Except.error errNet, id⟩

/-- Test environment in which the PDF bytes arrive but text extraction
raises — `pdfplumber.open` fails after the temporary file was written. -/
def envExtractFail : Env :=
  ⟨fun _ => Except.ok someBytes, fun _ => Except.error errPdf,
   fun _ => Except.error errNet, id⟩

/-- An arXiv abstract-view reference. -/
def urlAbs : List Char := "https://arxiv.org/abs/1234.5678".toList

/-- Its rewritten document-view (PDF) form. -/
def urlAbsPdf : List Char := "https://arxiv.org/pdf/1234.5678.pdf".toList

/-- A general web reference. -/
def urlWeb : List Char := "https://blog.example/post".toList

/-- Reference list for the pipeline witness: one structured and one web
reference. -/
def urlsW : List (List Char) := [urlAbs, urlWeb]

/-- 120 discovered references, for the cap-enforcement witness. -/
def urls120 : List (List Char) := List.replicate 120 urlWeb

/-- Slack channel name fixture. -/
def chName : List Char := "papers-running-list".toList

/-- Slack channel id fixture. -/
def chId : List Char := "C123".toList

/-- An in-window message on the first history page. -/
def msgPage1 : List Char := "hello http://first.example/a ok".toList

/-- An in-window message on the second history page. -/
def msgPage2 : List Char := "see http://second.example/paper".toList

/-- The URL carried only by the second page's message. -/
def urlSecond : List Char := "http://second.example/paper".toList

/-- A Slack world whose in-window history spans two pages. -/
def slackEnvCex : SlackEnv :=
  ⟨[(chName, chId)], fun _ => [[msgPage1], [msgPage2]]⟩

/-- A plain-text Gmail part decoding to `P`. -/
def partPlain : MsgPart := ⟨textPlainT, "P".toList⟩

/-- An HTML Gmail part decoding to `H`. -/
def partHtml : MsgPart := ⟨textHtmlT, "H".toList⟩

/-- A multi-part payload listing the HTML part before the plain-text
part; both are decodable. -/
def payloadHtmlFirst : GmailPayload := ⟨some [partHtml, partPlain], []⟩

/-- First line of the oversized web page: 49997 `a`s. -/
def cexLineA : List Char := List.replicate 49997 'a'

/-- Second line of the oversized web page. -/
def cexTail : List Char := "b cd".toList

/-- Visible text of the oversized web page: its cleaned form has 50002
characters, so the 50000-character cap cuts the second line between the
`b` and the `c`, right after the space. -/
def cexText : List Char := cexLineA ++ chNL :: cexTail

/-- Environment serving the oversized web page. -/
def cexEnv : Env :=
  ⟨fun _ => Except.error errNet, fun _ => Except.error errPdf,
   fun _ => Except.ok cexText, id⟩

/-- Environment serving a small, well-behaved web page. -/
def envWebSmall : Env :=
  ⟨fun _ => Except.error errNet, fun _ => Except.error errPdf,
   fun _ => Except.ok ((" hi   there \n\n ok ").toList), id⟩

/-- First line of the small web page's cleaned content. -/
def wHi : List Char := "hi".toList

/-- The condition under which the part loop of `_get_email_body` returns a
given part: its MIME type is `text/plain` or `text/html` and its body data
is non-empty. -/
def partPred (p : MsgPart) : Bool :=
  (p.mimeType == textPlainT || p.mimeType == textHtmlT) && !p.data.isEmpty

/-- Whether a string's first character, when present, is non-whitespace. -/
def headNotSpace (l : List Char) : Bool :=
  l.head?.all (fun c => !isSpaceChar c)

/-- Whether a string's last character, when present, is non-whitespace. -/
def lastNotSpace (l : List Char) : Bool :=
  l.getLast?.all (fun c => !isSpaceChar c)

/-! ## Helper lemmas about the Document Resolver -/

theorem classify_pdf_orig (url p o : List Char) (h : classify url = FetchPlan.pdf p o) :
    o = url := by
  unfold classify at h
  split_ifs at h
  all_goals (cases h; rfl)

theorem classify_web_orig (url u : List Char) (h : classify url = FetchPlan.web u) :
    u = url := by
  unfold classify at h
  split_ifs at h
  all_goals (cases h; rfl)

theorem download_pdf_url_eq (env : Env) (fs : FS) (p o : List Char) :
    ((download_pdf env fs p o).2).url = o := by
  unfold download_pdf
  cases hg : env.httpGet p with
  | error e => rfl
  | ok bytes =>
    dsimp only
    cases hp : env.pdfPages bytes with
    | error e => rfl
    | ok pages => rfl

theorem fetch_webpage_url_eq (env : Env) (u : List Char) :
    (fetch_webpage env u).url = u := by
  unfold fetch_webpage
  cases hg : env.httpGetPage u with
  | error e => rfl
  | ok body => rfl

theorem dpc_url_eq (env : Env) (fs : FS) (url : List Char) :
    ((download_paper_content env fs url).2).url = url := by
  unfold download_paper_content
  cases hcl : classify url with
  | pdf p o =>
    rw [download_pdf_url_eq]
    exact classify_pdf_orig url p o hcl
  | web u =>
    rw [fetch_webpage_url_eq]
    exact classify_web_orig url u hcl

theorem download_pdf_fail_shape (env : Env) (fs : FS) (p o : List Char)
    (he1 : ∀ u e, env.httpGet u = Except.error e → e ≠ [])
    (he2 : ∀ b e, env.pdfPages b = Except.error e → e ≠ [])
    (hf : ((download_pdf env fs p o).2).success = false) :
    ((download_pdf env fs p o).2).content = [] ∧
      ∃ e, ((download_pdf env fs p o).2).error = some e ∧ e ≠ [] := by
  unfold download_pdf at hf ⊢
  cases hg : env.httpGet p with
  | error e => exact ⟨rfl, e, rfl, he1 p e hg⟩
  | ok bytes =>
    rw [hg] at hf
    dsimp only at hf ⊢
    cases hp : env.pdfPages bytes with
    | error e => exact ⟨rfl, e, rfl, he2 bytes e hp⟩
    | ok pages =>
      rw [hp] at hf
      simp at hf

theorem fetch_webpage_fail_shape (env : Env) (u : List Char)
    (he3 : ∀ v e, env.httpGetPage v = Except.error e → e ≠ [])
    (hf : (fetch_webpage env u).success = false) :
    (fetch_webpage env u).content = [] ∧
      ∃ e, (fetch_webpage env u).error = some e ∧ e ≠ [] := by
  unfold fetch_webpage at hf ⊢
  cases hg : env.httpGetPage u with
  | error e => exact ⟨rfl, e, rfl, he3 u e hg⟩
  | ok body =>
    rw [hg] at hf
    simp at hf

theorem dpc_fail_shape (env : Env) (fs : FS) (url : List Char) (hok : EnvOk env)
    (hf : ((download_paper_content env fs url).2).success = false) :
    ((download_paper_content env fs url).2).content = [] ∧
      ∃ e, ((download_paper_content env fs url).2).error = some e ∧ e ≠ [] := by
  obtain ⟨he1, he2, he3⟩ := hok
  unfold download_paper_content at hf ⊢
  cases hcl : classify url with
  | pdf p o =>
    rw [hcl] at hf
    exact download_pdf_fail_shape env fs p o he1 he2 hf
  | web u =>
    rw [hcl] at hf
    exact fetch_webpage_fail_shape env u he3 hf

theorem download_pdf_caps (env : Env) (fs : FS) (p o : List Char) :
    (((download_pdf env fs p o).2).success = false →
        ((download_pdf env fs p o).2).content = []) ∧
      (((download_pdf env fs p o).2).success = true →
        (((download_pdf env fs p o).2).content).length ≤ pdfCap) := by
  unfold download_pdf
  cases hg : env.httpGet p with
  | error e => exact ⟨fun _ => rfl, fun h => by simp at h⟩
  | ok bytes =>
    dsimp only
    cases hp : env.pdfPages bytes with
    | error e => exact ⟨fun _ => rfl, fun h => by simp at h⟩
    | ok pages =>
      refine ⟨fun h => by simp at h, fun _ => ?_⟩
      simp only [List.length_take]
      exact min_le_left _ _

theorem fetch_webpage_caps (env : Env) (u : List Char) :
    ((fetch_webpage env u).success = false → (fetch_webpage env u).content = []) ∧
      ((fetch_webpage env u).success = true →
        ((fetch_webpage env u).content).length ≤ webCap) := by
  unfold fetch_webpage
  cases hg : env.httpGetPage u with
  | error e => exact ⟨fun _ => rfl, fun h => by simp at h⟩
  | ok body =>
    refine ⟨fun h => by simp at h, fun _ => ?_⟩
    simp only [List.length_take]
    exact min_le_left _ _

/-! ## Helper lemmas about the aggregation loop -/

theorem resolveAll_map_url (env : Env) (us : List (List Char)) :
    ∀ fs : FS, ((resolveAll env fs us).2).map RetrievalOutcome.url = us := by
  induction us with
  | nil => intro fs; rfl
  | cons u rest ih =>
    intro fs
    simp only [resolveAll, List.map_cons]
    rw [dpc_url_eq, ih]

theorem resolveAll_length (env : Env) (us : List (List Char)) :
    ∀ fs : FS, ((resolveAll env fs us).2).length = us.length := by
  induction us with
  | nil => intro fs; rfl
  | cons u rest ih =>
    intro fs
    simp only [resolveAll, List.length_cons]
    rw [ih]

theorem resolveAll_fail_shape (env : Env) (hok : EnvOk env) (us : List (List Char)) :
    ∀ fs : FS, ∀ o ∈ (resolveAll env fs us).2, o.success = false →
      o.content = [] ∧ ∃ e, o.error = some e ∧ e ≠ [] := by
  induction us with
  | nil => intro fs o ho; simp [resolveAll] at ho
  | cons u rest ih =>
    intro fs o ho
    simp only [resolveAll, List.mem_cons] at ho
    rcases ho with ho | ho
    · intro hf
      rw [ho]
      exact dpc_fail_shape env fs u hok (ho ▸ hf)
    · exact ih _ o ho

/-! ## Claim theorems for the Document Resolver -/

/-- C9: the `RetrievalOutcome` produced by the Document Resolver carries the
original reference string in its `url` field, unchanged, for every input —
in particular an arXiv `/abs/` reference rewritten to a `/pdf/` fetch URL
still reports the original `/abs/` string. -/
theorem c9_outcome_url_is_original (env : Env) (fs : FS) (url : List Char) :
    ((download_paper_content env fs url).2).url = url :=
  dpc_url_eq env fs url

/-- C5: every outcome of the Document Resolver satisfies the invariant that
a failed outcome has empty content, a successful one has content bounded by
its kind-specific cap — `pdfCap` (100000) for structured documents and
`webCap` (50000) for web documents — and the web cap is strictly smaller
than the structured-document cap. -/
theorem c5_content_cap_invariant (env : Env) (fs : FS) (url : List Char) :
    (((download_paper_content env fs url).2).success = false →
        ((download_paper_content env fs url).2).content = []) ∧
      (((download_paper_content env fs url).2).success = true →
        (((download_paper_content env fs url).2).content).length ≤
          capFor ((download_paper_content env fs url).2).type) ∧
      webCap < pdfCap ∧ pdfCap = 100000 ∧ webCap = 50000 := by
  unfold download_paper_content
  cases hcl : classify url with
  | pdf p o =>
    have hc := download_pdf_caps env fs p o
    have hty : ((download_pdf env fs p o).2).type = ContentKind.pdf := by
      unfold download_pdf
      cases hg : env.httpGet p with
      | error e => rfl
      | ok bytes =>
        dsimp only
        cases hp : env.pdfPages bytes with
        | error e => rfl
        | ok pages => rfl
    refine ⟨hc.1, fun hs => ?_, by decide, rfl, rfl⟩
    rw [hty]
    exact hc.2 hs
  | web u =>
    have hc := fetch_webpage_caps env u
    have hty : (fetch_webpage env u).type = ContentKind.webpage := by
      unfold fetch_webpage
      cases hg : env.httpGetPage u with
      | error e => rfl
      | ok body => rfl
    refine ⟨hc.1, fun hs => ?_, by decide, rfl, rfl⟩
    rw [hty]
    exact hc.2 hs

theorem c5_content_cap_invariant_witness :
    ((download_paper_content envFail fs0 urlWeb).2).content = [] ∧
      (((download_paper_content envGoodPdf fs0 urlAbs).2).content).length ≤
        capFor ((download_paper_content envGoodPdf fs0 urlAbs).2).type ∧
      webCap < pdfCap := by
  refine ⟨(c5_content_cap_invariant envFail fs0 urlWeb).1 (by decide),
    (c5_content_cap_invariant envGoodPdf fs0 urlAbs).2.1 (by decide),
    (c5_content_cap_invariant envGoodPdf fs0 urlAbs).2.2.1⟩

theorem download_pdf_type_eq (env : Env) (fs : FS) (p o : List Char) :
    ((download_pdf env fs p o).2).type = ContentKind.pdf := by
  unfold download_pdf
  cases hg : env.httpGet p with
  | error e => rfl
  | ok bytes =>
    dsimp only
    cases hp : env.pdfPages bytes with
    | error e => rfl
    | ok pages => rfl

/-- C4: the claim that the temporary PDF file is removed before
`_download_pdf` returns regardless of outcome fails on the code: when the
bytes are fetched and written but text extraction raises, the `except`
handler is entered before `os.remove` runs, so the temporary file is still
present when the call returns — transient state leaks into the next
reference's processing. -/
theorem c4_temp_file_leaks_on_extract_failure :
    ((download_pdf envExtractFail fs0 urlAbsPdf urlAbs).1).tmp = some someBytes ∧
      ((download_pdf envExtractFail fs0 urlAbsPdf urlAbs).2).success = false ∧
      ((download_pdf envGoodPdf fs0 urlAbsPdf urlAbs).1).tmp = none := by
  decide

/-- C3: the claim that `fetch_slack_urls` retrieves all in-window messages
fails on the code: the collector issues a single `conversations_history`
call and reads only the first page it returns, so a URL carried by an
in-window message on the second page never reaches the output. -/
theorem c3_second_page_urls_dropped :
    urlSecond ∈ findUrls msgPage2 ∧
      msgPage2 ∈ ((slackEnvCex.historyPages chId).flatten) ∧
      urlSecond ∉ fetch_slack_urls slackEnvCex chName := by
  decide

/-- C8: a reference matching the known structured-document-repository
abstract-view pattern — it contains `arxiv.org` and `/abs/` — is rewritten
by `download_paper_content` to the repository's document-view form
(`/abs/` replaced by `/pdf/`, with `.pdf` appended) and fetched as a
structured document (outcome kind `pdf`), not as a general web document. -/
theorem c8_abs_reference_rewritten_to_pdf (env : Env) (fs : FS) (url : List Char)
    (h1 : containsSub arxivStr url = true) (h2 : containsSub absSeg url = true) :
    classify url = FetchPlan.pdf (pyReplace url absSeg pdfSeg ++ dotPdf) url ∧
      ((download_paper_content env fs url).2).type = ContentKind.pdf := by
  have hcl : classify url = FetchPlan.pdf (pyReplace url absSeg pdfSeg ++ dotPdf) url := by
    unfold classify
    rw [h1, h2]
    rfl
  refine ⟨hcl, ?_⟩
  unfold download_paper_content
  rw [hcl]
  exact download_pdf_type_eq env fs _ url

theorem c8_abs_reference_rewritten_to_pdf_witness :
    classify urlAbs = FetchPlan.pdf urlAbsPdf urlAbs ∧
      ((download_paper_content envFail fs0 urlAbs).2).type = ContentKind.pdf := by
  obtain ⟨h1, h2⟩ := c8_abs_reference_rewritten_to_pdf envFail fs0 urlAbs
    (by decide) (by decide)
  refine ⟨?_, h2⟩
  rw [h1]
  decide

/-- C7: the Aggregation Pipeline resolves at most `paperCap` (50)
references per run; with 120 discovered references exactly the first 50 in
collector order are resolved, the run holds at most 50 outcomes, and the
count of discovered references reported to the operator stays 120. -/
theorem c7_cap_enforcement (env : Env) (fs : FS) (urls : List (List Char))
    (h : urls.length = 120) :
    reportedCount urls = 120 ∧
      ((runPipeline env fs urls).2).length = 50 ∧
      ((runPipeline env fs urls).2).map RetrievalOutcome.url = urls.take 50 ∧
      ((runPipeline env fs urls).2).length ≤ 50 := by
  have hlen : ((runPipeline env fs urls).2).length = 50 := by
    unfold runPipeline
    rw [resolveAll_length, List.length_take, h]
    decide
  refine ⟨h, hlen, ?_, le_of_eq hlen⟩
  unfold runPipeline
  rw [resolveAll_map_url]
  rfl

theorem c7_cap_enforcement_witness :
    reportedCount urls120 = 120 ∧
      ((runPipeline envFail fs0 urls120).2).length = 50 ∧
      ((runPipeline envFail fs0 urls120).2).map RetrievalOutcome.url = urls120.take 50 ∧
      ((runPipeline envFail fs0 urls120).2).length ≤ 50 :=
  c7_cap_enforcement envFail fs0 urls120 (by decide)

/-- C1: the Document Resolver returns exactly one outcome per reference
(the pipeline's outcome list mirrors the capped input list, in order); a
failed resolution yields `success = false`, empty content, and a non-empty
error description, and every other reference still gets its own outcome —
provided the environment reports failures with non-empty exception
messages. -/
theorem c1_isolation_and_coverage (env : Env) (fs : FS) (urls : List (List Char))
    (hok : EnvOk env) :
    ((runPipeline env fs urls).2).map RetrievalOutcome.url = urls.take paperCap ∧
      ∀ o ∈ (runPipeline env fs urls).2, o.success = false →
        o.content = [] ∧ ∃ e, o.error = some e ∧ e ≠ [] := by
  constructor
  · unfold runPipeline
    rw [resolveAll_map_url]
  · intro o ho
    exact resolveAll_fail_shape env hok _ fs o ho

theorem c1_isolation_and_coverage_witness :
    ((runPipeline envFail fs0 urlsW).2).map RetrievalOutcome.url = urlsW.take paperCap ∧
      ∀ o ∈ (runPipeline envFail fs0 urlsW).2, o.success = false →
        o.content = [] ∧ ∃ e, o.error = some e ∧ e ≠ [] := by
  refine c1_isolation_and_coverage envFail fs0 urlsW ⟨?_, ?_, ?_⟩
  · intro u e h
    injection h with h2
    rw [← h2]
    decide
  · intro b e h
    injection h with h2
    rw [← h2]
    decide
  · intro u e h
    injection h with h2
    rw [← h2]
    decide

/-! ## Newsletter body extraction (C2) -/

theorem get_email_body_parts_eq (b64 : List Char → List Char) (parts : List MsgPart) :
    get_email_body_parts b64 parts =
      match List.find? partPred parts with
      | some p => b64 p.data
      | none => [] := by
  induction parts with
  | nil => rfl
  | cons part rest ih =>
    simp only [get_email_body_parts, List.find?_cons]
    cases e1 : part.mimeType == textPlainT with
    | true =>
      have h1 : part.mimeType = textPlainT := eq_of_beq e1
      rw [if_pos h1]
      cases ed : part.data.isEmpty with
      | true => simp [partPred, e1, ed, ih]
      | false => simp [partPred, e1, ed]
    | false =>
      have h1 : ¬ part.mimeType = textPlainT := by
        intro h
        rw [h] at e1
        simp at e1
      rw [if_neg h1]
      cases e2 : part.mimeType == textHtmlT with
      | true =>
        have h2 : part.mimeType = textHtmlT := eq_of_beq e2
        rw [if_pos h2]
        cases ed : part.data.isEmpty with
        | true => simp [partPred, e1, e2, ed, ih]
        | false => simp [partPred, e1, e2, ed]
      | false =>
        have h2 : ¬ part.mimeType = textHtmlT := by
          intro h
          rw [h] at e2
          simp at e2
        rw [if_neg h2]
        simp [partPred, e1, e2, ih]

/-- C2 (counterexample): in a multi-part payload listing a decodable HTML
part before a decodable plain-text part, `_get_email_body` returns the
decoded HTML part, not the decoded plain-text part — the claim that the
plain-text part is preferred in any part order is false. -/
theorem c2_plain_not_preferred_counterexample :
    get_email_body id payloadHtmlFirst = "H".toList ∧
      get_email_body id payloadHtmlFirst ≠ "P".toList := by
  decide

/-- C2 (amended): for a multi-part payload, `_get_email_body` returns the
decoded data of the first part in payload order whose MIME type is
`text/plain` or `text/html` and whose data is non-empty — so the plain-text
part is preferred exactly when it appears no later than every decodable
HTML part — and when no part qualifies the body is the empty string. -/
theorem c2_first_decodable_part_wins (b64 : List Char → List Char)
    (parts : List MsgPart) (bd : List Char) :
    get_email_body b64 ⟨some parts, bd⟩ =
      match List.find? partPred parts with
      | some p => b64 p.data
      | none => [] :=
  get_email_body_parts_eq b64 parts

/-! ## Reference Collector: extracted URLs and deduplication (C6) -/

theorem httpsPre_chars : ∀ c ∈ httpsPre, isUrlChar c = true := by decide

theorem httpPre_chars : ∀ c ∈ httpPre, isUrlChar c = true := by decide

theorem matchUrlAt_chars (l u : List Char) (hm : matchUrlAt l = some u) :
    ∀ c ∈ u, isUrlChar c = true := by
  simp only [matchUrlAt] at hm
  split_ifs at hm <;> (try cases hm) <;> intro c hc <;>
    rcases List.mem_append.1 hc with h | h
  · exact httpsPre_chars c h
  · exact List.mem_takeWhile_imp h
  · exact httpPre_chars c h
  · exact List.mem_takeWhile_imp h

theorem scanGo_chars : ∀ fuel l u, u ∈ scanGo fuel l → ∀ c ∈ u, isUrlChar c = true := by
  intro fuel
  induction fuel with
  | zero =>
    intro l u hu
    simp [scanGo] at hu
  | succ n ih =>
    intro l u hu
    cases l with
    | nil => simp [scanGo] at hu
    | cons c0 rest =>
      simp only [scanGo] at hu
      cases hm : matchUrlAt (c0 :: rest) with
      | some u0 =>
        rw [hm] at hu
        rcases List.mem_cons.1 hu with rfl | h
        · exact matchUrlAt_chars _ u hm
        · exact ih _ u h
      | none =>
        rw [hm] at hu
        exact ih _ u hu

theorem findUrls_chars (t u : List Char) (hu : u ∈ findUrls t) :
    ∀ c ∈ u, isUrlChar c = true :=
  scanGo_chars t.length t u hu

theorem space_not_url (c : Char) (h : isSpaceChar c = true) : isUrlChar c = false := by
  simp only [isSpaceChar, Bool.or_eq_true, beq_iff_eq] at h
  rcases h with ((((rfl | rfl) | rfl) | rfl) | rfl) | rfl <;> decide

theorem urlChar_not_space (c : Char) (h : isUrlChar c = true) : isSpaceChar c = false := by
  cases hs : isSpaceChar c with
  | false => rfl
  | true =>
    rw [space_not_url c hs] at h
    simp at h

theorem dropWhile_space_eq_self (l : List Char) (h : ∀ c ∈ l, isSpaceChar c = false) :
    l.dropWhile isSpaceChar = l := by
  cases l with
  | nil => rfl
  | cons c rest =>
    rw [List.dropWhile_cons, h c (List.mem_cons_self c rest)]
    simp

theorem strip_eq_self_of_no_space (l : List Char) (h : ∀ c ∈ l, isSpaceChar c = false) :
    strip l = l := by
  unfold strip
  rw [dropWhile_space_eq_self l h,
    dropWhile_space_eq_self l.reverse (fun c hc => h c (List.mem_reverse.1 hc))]
  exact List.reverse_reverse l

theorem dedupGo_eq (l : List (List Char)) :
    ∀ seen, dedupGo seen l = dedupFirst (l.filter (fun v => decide (v ∉ seen))) := by
  induction l with
  | nil =>
    intro seen
    simp [dedupGo, dedupFirst]
  | cons u rest ih =>
    intro seen
    by_cases hm : u ∈ seen
    · rw [dedupGo, if_pos hm, ih seen, List.filter_cons]
      simp [hm]
    · rw [dedupGo, if_neg hm, ih (u :: seen), List.filter_cons]
      have hq : decide (u ∉ seen) = true := by simp [hm]
      rw [hq, if_pos rfl, dedupFirst]
      congr 1
      rw [List.filter_filter]
      congr 1
      apply List.filter_congr
      intro v hv
      by_cases h1 : v = u
      · simp [h1]
      · by_cases h2 : v ∈ seen <;> simp [h1, h2]

theorem mem_dedupFirst (l : List (List Char)) (v : List Char) :
    v ∈ dedupFirst l ↔ v ∈ l := by
  induction l using dedupFirst.induct with
  | case1 => simp [dedupFirst]
  | case2 u rest ih =>
    rw [dedupFirst]
    simp only [List.mem_cons, ih, List.mem_filter, decide_eq_true_eq]
    by_cases hvu : v = u <;> simp [hvu]

theorem nodup_dedupFirst (l : List (List Char)) : (dedupFirst l).Nodup := by
  induction l using dedupFirst.induct with
  | case1 => simp [dedupFirst]
  | case2 u rest ih =>
    rw [dedupFirst]
    refine List.nodup_cons.2 ⟨?_, ih⟩
    intro hmem
    have := (mem_dedupFirst _ u).1 hmem
    simp at this

theorem toFinset_dedupFirst (l : List (List Char)) :
    (dedupFirst l).toFinset = l.toFinset := by
  ext v
  simp [List.mem_toFinset, mem_dedupFirst]

theorem length_dedupFirst (l : List (List Char)) :
    (dedupFirst l).length = l.toFinset.card := by
  rw [← toFinset_dedupFirst]
  exact (List.toFinset_card_of_nodup (nodup_dedupFirst l)).symm

theorem map_strip_id (l : List (List Char)) (h : ∀ u ∈ l, strip u = u) :
    l.map strip = l := by
  rw [List.map_congr_left h]
  exact List.map_id l

/-- C6: over any message set, the Reference Collector's deduplicated output
contains no two references equal after trimming, its size equals the number
of distinct trimmed values among the extracted URL strings, and it lists
references in order of first occurrence (it equals the canonical
first-occurrence deduplication).  Extracted URLs contain no whitespace —
the URL regex admits none — so trimming is the identity on them and
whitespace-identical repeats are exact repeats. -/
theorem c6_dedup_matches_normalized_first_occurrence (msgs : List (List Char)) :
    ((extractUniqueUrls msgs).map strip).Nodup ∧
      (extractUniqueUrls msgs).length =
        ((msgs.flatMap findUrls).map strip).toFinset.card ∧
      extractUniqueUrls msgs = dedupFirst (msgs.flatMap findUrls) := by
  have hchars : ∀ u ∈ msgs.flatMap findUrls, ∀ c ∈ u, isUrlChar c = true := by
    intro u hu c hc
    rcases List.mem_flatMap.1 hu with ⟨m, _, hum⟩
    exact findUrls_chars m u hum c hc
  have hstrip : ∀ u ∈ msgs.flatMap findUrls, strip u = u := fun u hu =>
    strip_eq_self_of_no_space u (fun c hc => urlChar_not_space c (hchars u hu c hc))
  have heq : extractUniqueUrls msgs = dedupFirst (msgs.flatMap findUrls) := by
    unfold extractUniqueUrls dedupUrls
    rw [dedupGo_eq]
    congr 1
    apply List.filter_eq_self.2
    intro v _
    simp
  refine ⟨?_, ?_, heq⟩
  · rw [heq, map_strip_id _ (fun u hu => hstrip u ((mem_dedupFirst _ u).1 hu))]
    exact nodup_dedupFirst _
  · rw [heq, length_dedupFirst, map_strip_id _ hstrip]

/-! ## Web-page clean-up: line structure (C10) -/

theorem splitlinesGo_append_no_nl (x : List Char) (hx : chNL ∉ x) :
    ∀ acc rest, splitlinesGo acc (x ++ rest) = splitlinesGo (acc ++ x) rest := by
  induction x with
  | nil =>
    intro acc rest
    simp
  | cons c x' ih =>
    intro acc rest
    have hc : (c == chNL) = false := by
      simp only [beq_eq_false_iff_ne, ne_eq]
      intro h
      exact hx (h ▸ List.mem_cons_self c x')
    simp only [List.cons_append, splitlinesGo, hc, Bool.false_eq_true, if_false,
      List.append_eq]
    rw [ih (fun h => hx (List.mem_cons_of_mem c h)) (acc ++ [c]) rest]
    simp

theorem splitlinesGo_nl (acc rest : List Char) :
    splitlinesGo acc (chNL :: rest) = acc :: splitlinesGo [] rest := by
  simp [splitlinesGo]

theorem splitlines_no_nl (l : List Char) (hne : l ≠ []) (h : chNL ∉ l) :
    splitlines l = [l] := by
  unfold splitlines
  have := splitlinesGo_append_no_nl l h [] []
  rw [List.append_nil] at this
  rw [this]
  simp only [splitlinesGo, List.nil_append]
  rw [if_neg]
  simp [hne]

theorem splitlines_append_nl (x rest : List Char) (hx : chNL ∉ x) :
    splitlines (x ++ chNL :: rest) = x :: splitlines rest := by
  unfold splitlines
  rw [splitlinesGo_append_no_nl x hx [] (chNL :: rest)]
  simp only [List.nil_append]
  exact splitlinesGo_nl x rest

theorem splitlinesGo_no_nl_mem (t : List Char) :
    ∀ acc, chNL ∉ acc → ∀ l ∈ splitlinesGo acc t, chNL ∉ l := by
  induction t with
  | nil =>
    intro acc hacc l hl
    simp only [splitlinesGo] at hl
    split_ifs at hl
    · simp at hl
    · rw [List.mem_singleton] at hl
      exact hl ▸ hacc
  | cons c rest ih =>
    intro acc hacc l hl
    simp only [splitlinesGo] at hl
    by_cases hc : (c == chNL) = true
    · rw [if_pos hc] at hl
      rcases List.mem_cons.1 hl with rfl | hl'
      · exact hacc
      · exact ih [] (by simp) l hl'
    · rw [if_neg hc] at hl
      refine ih (acc ++ [c]) ?_ l hl
      intro hmem
      rcases List.mem_append.1 hmem with h | h
      · exact hacc h
      · rw [List.mem_singleton] at h
        rw [h] at hc
        simp at hc

theorem splitlines_no_nl_mem (t l : List Char) (hl : l ∈ splitlines t) : chNL ∉ l :=
  splitlinesGo_no_nl_mem t [] (by simp) l hl

theorem head?_dropWhile_false (p : Char → Bool) (k : List Char) :
    ∀ c, (k.dropWhile p).head? = some c → p c = false := by
  induction k with
  | nil =>
    intro c hc
    simp at hc
  | cons a as ih =>
    intro c hc
    rw [List.dropWhile_cons] at hc
    by_cases ha : p a = true
    · rw [if_pos ha] at hc
      exact ih c hc
    · rw [if_neg ha] at hc
      simp only [List.head?_cons, Option.some.injEq] at hc
      rw [← hc]
      exact Bool.not_eq_true _ ▸ (by simpa using ha)

theorem getLast?_dropWhile_of_ne (p : Char → Bool) (k : List Char)
    (h : k.dropWhile p ≠ []) : (k.dropWhile p).getLast? = k.getLast? := by
  induction k with
  | nil => simp at h
  | cons a as ih =>
    rw [List.dropWhile_cons]
    by_cases ha : p a = true
    · rw [List.dropWhile_cons, if_pos ha] at h
      have has : as ≠ [] := by
        intro he
        rw [he] at h
        simp at h
      rw [if_pos ha, ih h]
      cases as with
      | nil => exact absurd rfl has
      | cons b bs => rfl
    · rw [if_neg ha]

theorem strip_headNotSpace (l : List Char) : headNotSpace (strip l) = true := by
  unfold headNotSpace strip
  rw [List.head?_reverse]
  cases hm : List.dropWhile isSpaceChar ((List.dropWhile isSpaceChar l).reverse) with
  | nil => rfl
  | cons a as =>
    rw [← hm, getLast?_dropWhile_of_ne _ _ (by rw [hm]; simp), List.getLast?_reverse]
    cases hh : (List.dropWhile isSpaceChar l).head? with
    | none => rfl
    | some c =>
      simp [head?_dropWhile_false _ _ c hh]

theorem strip_lastNotSpace (l : List Char) : lastNotSpace (strip l) = true := by
  unfold lastNotSpace strip
  rw [List.getLast?_reverse]
  cases hh : (List.dropWhile isSpaceChar ((List.dropWhile isSpaceChar l).reverse)).head? with
  | none => rfl
  | some c =>
    simp [head?_dropWhile_false _ _ c hh]

theorem mem_strip_sub (l : List Char) (c : Char) (hc : c ∈ strip l) : c ∈ l := by
  unfold strip at hc
  have h1 := List.mem_reverse.1 hc
  have h2 := (List.dropWhile_sublist _).subset h1
  have h3 := List.mem_reverse.1 h2
  exact (List.dropWhile_sublist _).subset h3

theorem splitDSGo_chars (acc l : List Char) :
    ∀ x ∈ splitDSGo acc l, ∀ c ∈ x, c ∈ acc ∨ c ∈ l := by
  induction acc, l using splitDSGo.induct with
  | case1 acc =>
    intro x hx c hc
    simp only [splitDSGo, List.mem_singleton] at hx
    exact Or.inl (hx ▸ hc)
  | case2 acc c0 =>
    intro x hx c hc
    simp only [splitDSGo, List.mem_singleton] at hx
    rw [hx] at hc
    rcases List.mem_append.1 hc with h | h
    · exact Or.inl h
    · exact Or.inr h
  | case3 acc c1 c2 rest hcond ih =>
    intro x hx c hc
    simp only [splitDSGo] at hx
    rw [if_pos hcond] at hx
    rcases List.mem_cons.1 hx with rfl | hx'
    · exact Or.inl hc
    · rcases ih x hx' c hc with h | h
      · simp at h
      · exact Or.inr (List.mem_cons_of_mem _ (List.mem_cons_of_mem _ h))
  | case4 acc c1 c2 rest hcond ih =>
    intro x hx c hc
    simp only [splitDSGo] at hx
    rw [if_neg hcond] at hx
    rcases ih x hx c hc with h | h
    · rcases List.mem_append.1 h with h2 | h2
      · exact Or.inl h2
      · rw [List.mem_singleton] at h2
        exact Or.inr (h2 ▸ List.mem_cons_self _ _)
    · exact Or.inr (List.mem_cons_of_mem _ h)

theorem mem_splitDS_sub (l x : List Char) (hx : x ∈ splitDS l) (c : Char) (hc : c ∈ x) :
    c ∈ l := by
  rcases splitDSGo_chars [] l x hx c hc with h | h
  · simp at h
  · exact h

theorem splitDSGo_no_space (acc l : List Char) :
    (∀ c ∈ l, c ≠ chSpace) → splitDSGo acc l = [acc ++ l] := by
  induction acc, l using splitDSGo.induct with
  | case1 acc =>
    intro _
    simp [splitDSGo]
  | case2 acc c0 =>
    intro _
    simp [splitDSGo]
  | case3 acc c1 c2 rest hcond ih =>
    intro h
    exact absurd (eq_of_beq ((Bool.and_eq_true _ _ ▸ hcond).1))
      (h c1 (List.mem_cons_self _ _))
  | case4 acc c1 c2 rest hcond ih =>
    intro h
    simp only [splitDSGo]
    rw [if_neg hcond, ih (fun c hc => h c (List.mem_cons_of_mem _ hc))]
    simp

theorem splitDS_no_space (l : List Char) (h : ∀ c ∈ l, c ≠ chSpace) :
    splitDS l = [l] := by
  unfold splitDS
  rw [splitDSGo_no_space [] l h]
  simp

theorem head?_take_pos (c : List Char) (n : Nat) (hn : 0 < n) :
    (c.take n).head? = c.head? := by
  cases c with
  | nil => simp
  | cons a as =>
    cases n with
    | zero => exact absurd hn (by simp)
    | succ m => simp [List.take_succ_cons]

theorem lines_of_take_single (c : List Char) (hne : c ≠ []) (hnl : chNL ∉ c)
    (hh : headNotSpace c = true) (n : Nat) :
    (∀ l ∈ splitlines (c.take n), l ≠ [] ∧ headNotSpace l = true) ∧
      (∀ l ∈ (splitlines (c.take n)).dropLast, lastNotSpace l = true) := by
  cases n with
  | zero =>
    constructor <;> intro l hl <;> simp [splitlines, splitlinesGo] at hl
  | succ m =>
    cases c with
    | nil => exact absurd rfl hne
    | cons a as =>
      have htne : (a :: as).take (m + 1) ≠ [] := by simp [List.take_succ_cons]
      have htnl : chNL ∉ (a :: as).take (m + 1) := fun hmem =>
        hnl (List.take_subset _ _ hmem)
      rw [splitlines_no_nl _ htne htnl]
      constructor
      · intro l hl
        rw [List.mem_singleton] at hl
        subst hl
        refine ⟨htne, ?_⟩
        unfold headNotSpace at hh ⊢
        rw [head?_take_pos _ _ (Nat.succ_pos m)]
        exact hh
      · intro l hl
        simp at hl

theorem lines_of_take_joinNL :
    ∀ chunks : List (List Char),
      (∀ c ∈ chunks, c ≠ []) → (∀ c ∈ chunks, chNL ∉ c) →
      (∀ c ∈ chunks, headNotSpace c = true) → (∀ c ∈ chunks, lastNotSpace c = true) →
      ∀ n, (∀ l ∈ splitlines ((joinNL chunks).take n), l ≠ [] ∧ headNotSpace l = true) ∧
        (∀ l ∈ (splitlines ((joinNL chunks).take n)).dropLast, lastNotSpace l = true) := by
  intro chunks
  induction chunks with
  | nil =>
    intro _ _ _ _ n
    constructor <;> intro l hl <;> simp [joinNL, splitlines, splitlinesGo] at hl
  | cons c cs ih =>
    intro hne hnl hh hlast n
    cases cs with
    | nil =>
      simp only [joinNL]
      exact lines_of_take_single c (hne c (List.mem_cons_self _ _))
        (hnl c (List.mem_cons_self _ _)) (hh c (List.mem_cons_self _ _)) n
    | cons c2 cs' =>
      simp only [joinNL]
      by_cases hcase : n ≤ c.length
      · have heq : (c ++ chNL :: joinNL (c2 :: cs')).take n = c.take n := by
          rw [List.take_append_eq_append_take, Nat.sub_eq_zero_of_le hcase]
          simp
        rw [heq]
        exact lines_of_take_single c (hne c (List.mem_cons_self _ _))
          (hnl c (List.mem_cons_self _ _)) (hh c (List.mem_cons_self _ _)) n
      · push_neg at hcase
        obtain ⟨m, hm⟩ : ∃ m, n - c.length = m + 1 := ⟨n - c.length - 1, by omega⟩
        have heq : (c ++ chNL :: joinNL (c2 :: cs')).take n
            = c ++ chNL :: (joinNL (c2 :: cs')).take m := by
          rw [List.take_append_eq_append_take, hm,
            List.take_of_length_le (le_of_lt hcase), List.take_succ_cons]
        rw [heq, splitlines_append_nl c _ (hnl c (List.mem_cons_self _ _))]
        have ihh := ih (fun x hx => hne x (List.mem_cons_of_mem _ hx))
          (fun x hx => hnl x (List.mem_cons_of_mem _ hx))
          (fun x hx => hh x (List.mem_cons_of_mem _ hx))
          (fun x hx => hlast x (List.mem_cons_of_mem _ hx)) m
        constructor
        · intro l hl
          rcases List.mem_cons.1 hl with heqc | hl'
          · rw [heqc]
            exact ⟨hne c (List.mem_cons_self _ _), hh c (List.mem_cons_self _ _)⟩
          · exact ihh.1 l hl'
        · intro l hl
          cases hLs : splitlines ((joinNL (c2 :: cs')).take m) with
          | nil =>
            rw [hLs] at hl
            simp at hl
          | cons y ys =>
            rw [hLs, List.dropLast_cons₂] at hl
            rcases List.mem_cons.1 hl with heqc | hl'
            · rw [heqc]
              exact hlast c (List.mem_cons_self _ _)
            · refine ihh.2 l ?_
              rw [hLs]
              exact hl'

/-- C10 (amended): for every web-document outcome (and vacuously for failed
ones, whose content is empty), splitting the content into lines yields no
blank line and no line that begins with whitespace, and every line except
possibly the last ends in a non-whitespace character — the cap truncation
can cut a chunk mid-way, so only the final line may carry trailing
whitespace. -/
theorem c10_web_content_line_shape (env : Env) (url : List Char) :
    (∀ l ∈ splitlines ((fetch_webpage env url).content),
        l ≠ [] ∧ headNotSpace l = true) ∧
      (∀ l ∈ (splitlines ((fetch_webpage env url).content)).dropLast,
        lastNotSpace l = true) := by
  unfold fetch_webpage
  cases hg : env.httpGetPage url with
  | error e =>
    constructor <;> intro l hl <;> simp [splitlines, splitlinesGo] at hl
  | ok body =>
    dsimp only
    unfold cleanText
    apply lines_of_take_joinNL
    · intro x hx
      rcases List.mem_filter.1 hx with ⟨_, hb⟩
      simpa using hb
    · intro x hx
      rcases List.mem_filter.1 hx with ⟨hmem, _⟩
      rcases List.mem_map.1 hmem with ⟨y, hy, rfl⟩
      intro hnl
      have hy1 := mem_strip_sub y chNL hnl
      rcases List.mem_flatten.1 hy with ⟨dsl, hdsl, hydsl⟩
      rcases List.mem_map.1 hdsl with ⟨lineS, hlineS, rfl⟩
      have hy2 := mem_splitDS_sub lineS y hydsl chNL hy1
      rcases List.mem_map.1 hlineS with ⟨line, hline, rfl⟩
      have hy3 := mem_strip_sub line chNL hy2
      exact splitlines_no_nl_mem _ line hline hy3
    · intro x hx
      rcases List.mem_filter.1 hx with ⟨hmem, _⟩
      rcases List.mem_map.1 hmem with ⟨y, _, rfl⟩
      exact strip_headNotSpace y
    · intro x hx
      rcases List.mem_filter.1 hx with ⟨hmem, _⟩
      rcases List.mem_map.1 hmem with ⟨y, _, rfl⟩
      exact strip_lastNotSpace y

theorem c10_web_content_line_shape_witness :
    (wHi ≠ [] ∧ headNotSpace wHi = true) ∧ lastNotSpace wHi = true := by
  have h := c10_web_content_line_shape envWebSmall urlWeb
  exact ⟨h.1 wHi (by decide), h.2 wHi (by decide)⟩

theorem cexLineA_ne_nil : cexLineA ≠ [] := by
  intro h
  have hlen : cexLineA.length = 49997 := List.length_replicate _ _
  rw [h] at hlen
  exact absurd hlen (by decide)

theorem cexLineA_no_nl : chNL ∉ cexLineA := by
  intro h
  have := List.eq_of_mem_replicate h
  exact absurd this (by decide)

theorem cexLineA_no_space : ∀ c ∈ cexLineA, isSpaceChar c = false := by
  intro c hc
  rw [List.eq_of_mem_replicate hc]
  decide

theorem cexLineA_no_space_char : ∀ c ∈ cexLineA, c ≠ chSpace := by
  intro c hc
  rw [List.eq_of_mem_replicate hc]
  decide

theorem cex_splitlines : splitlines cexText = [cexLineA, cexTail] := by
  unfold cexText
  rw [splitlines_append_nl _ _ cexLineA_no_nl,
    splitlines_no_nl cexTail (by decide) (by decide)]

theorem cexLineA_isEmpty_false : cexLineA.isEmpty = false := by
  cases hA : cexLineA with
  | nil => exact absurd hA cexLineA_ne_nil
  | cons a as => rfl

theorem cex_cleanText : cleanText cexText = cexText := by
  have hz : cleanText cexText =
      joinNL (List.filter (fun c => !c.isEmpty)
        (List.map strip
          ((List.map splitDS (List.map strip (splitlines cexText))).flatten))) := rfl
  rw [hz, cex_splitlines]
  simp only [List.map_cons, List.map_nil]
  rw [strip_eq_self_of_no_space _ cexLineA_no_space,
    show strip cexTail = cexTail from by decide]
  rw [splitDS_no_space _ cexLineA_no_space_char,
    show splitDS cexTail = [cexTail] from by decide]
  simp only [List.flatten_cons, List.flatten_nil, List.cons_append,
    List.nil_append, List.append_nil]
  simp only [List.map_cons, List.map_nil]
  rw [strip_eq_self_of_no_space _ cexLineA_no_space,
    show strip cexTail = cexTail from by decide]
  have hfil : List.filter (fun c => !c.isEmpty) [cexLineA, cexTail]
      = [cexLineA, cexTail] := by
    apply List.filter_eq_self.2
    intro a ha
    rcases List.mem_cons.1 ha with h1 | h2
    · rw [h1, cexLineA_isEmpty_false]
      rfl
    · rw [List.mem_singleton] at h2
      rw [h2]
      decide
  rw [hfil]
  rfl

theorem cex_content_eq :
    (fetch_webpage cexEnv urlWeb).content = cexLineA ++ [chNL, 'b', chSpace] := by
  unfold fetch_webpage
  rw [show cexEnv.httpGetPage urlWeb = Except.ok cexText from rfl]
  dsimp only
  rw [show cexEnv.soupText cexText = cexText from rfl, cex_cleanText]
  unfold cexText
  rw [List.take_append_eq_append_take]
  have hlen : cexLineA.length = 49997 := List.length_replicate _ _
  have hle : cexLineA.length ≤ webCap := by
    rw [hlen]
    decide
  rw [List.take_of_length_le hle, hlen]
  rw [show webCap - 49997 = 3 from by decide]
  rw [show List.take 3 (chNL :: cexTail) = [chNL, 'b', chSpace] from by decide]

/-- C10 (counterexample): the claim that no line of a successful
web-document content carries trailing spaces is false: when the cleaned
text exceeds the 50000-character cap and the cut falls just after a space
inside a chunk, the truncated content's final line ends in a space.  Here
the page's visible text is a 49997-character line followed by the line
`b cd`, and the capped content's last line is `b` followed by a space. -/
theorem c10_trailing_space_counterexample :
    (fetch_webpage cexEnv urlWeb).success = true ∧
      ∃ l ∈ splitlines ((fetch_webpage cexEnv urlWeb).content),
        lastNotSpace l = false := by
  refine ⟨rfl, ⟨['b', chSpace], ?_, by decide⟩⟩
  rw [cex_content_eq,
    show cexLineA ++ [chNL, 'b', chSpace] = cexLineA ++ chNL :: ['b', chSpace] from rfl,
    splitlines_append_nl _ _ cexLineA_no_nl,
    splitlines_no_nl ['b', chSpace] (by decide) (by decide)]
  simp
